import Mathlib

/-!
Verification development for the md4c-odin Markdown engine.

The repository's translation unit (src/src/lib.c) includes the parser
(md4c.c), the HTML renderer (md4c-html.c) and the entity decoder
(entity.c), and asserts the widths of the engine's offset/size/char
types.  The included engine sources are not part of the repository
checkout, so the engine itself is modelled from the specification:
every definition whose doc comment starts with `Modelled from the
spec:` is a shallow embedding of the component the spec describes.

Strings are modelled as `List Char`.  Recursions that walk the input
are driven by an explicit fuel argument, always instantiated with a
bound derived from the input length that the scan can never exhaust
(every step consumes at least one character).
-/

namespace MD4C

set_option maxRecDepth 10000

/-- Byte/character strings of the engine, modelled as character lists. -/
abbrev Str := List Char

/-- Modelled from the spec: the whitespace character class used by the
flanking rules and label normalization (space, tab, line endings). -/
def isWhitespaceChar (c : Char) : Bool :=
  c = ' ' ∨ c = '\t' ∨ c = '\n' ∨ c = '\x0b' ∨ c = '\x0c' ∨ c = '\r'

/-- Modelled from the spec: ASCII punctuation, as used by backslash
escapes and the flanking rules. -/
def isPunctChar (c : Char) : Bool :=
  c ∈ ['!', '"', '#', '$', '%', '&', '\'', '(', ')', '*', '+', ',', '-',
       '.', '/', ':', ';', '<', '=', '>', '?', '@', '[', '\\', ']', '^',
       '_', '`', '{', '|', '}', '~']

/-- ASCII letter test. -/
def isAsciiAlpha (c : Char) : Bool :=
  ('a' ≤ c ∧ c ≤ 'z') ∨ ('A' ≤ c ∧ c ≤ 'Z')

/-- ASCII digit test. -/
def isAsciiDigit (c : Char) : Bool :=
  '0' ≤ c ∧ c ≤ '9'

/-- ASCII alphanumeric test (entity names). -/
def isAsciiAlphaNum (c : Char) : Bool :=
  isAsciiAlpha c ∨ isAsciiDigit c

/-! ## HTML escaping (md4c-html.c, modelled from the spec §4.5) -/

/-- Modelled from the spec: per-character escape for HTML text content;
exactly the three characters ampersand, less-than and greater-than are
replaced by entities, every other character passes through. -/
def escChar (c : Char) : Str :=
  if c = '&' then "&amp;".toList
  else if c = '<' then "&lt;".toList
  else if c = '>' then "&gt;".toList
  else [c]

/-- Modelled from the spec: HTML text-content escaping. -/
def escapeHTML (s : Str) : Str :=
  (s.map escChar).flatten

/-- Modelled from the spec: per-character escape for attribute values
(link destinations and titles), which additionally escape the double
quote. -/
def escAttrChar (c : Char) : Str :=
  if c = '"' then "&quot;".toList else escChar c

/-- Modelled from the spec: HTML attribute-value escaping. -/
def escapeAttr (s : Str) : Str :=
  (s.map escAttrChar).flatten

/-! ## Entity decoder (entity.c, modelled from the spec §4.1) -/

/-- The Unicode replacement character, as a code point. -/
def replacement_codepoint : Nat := 0xFFFD

/-- Modelled from the spec: the control codes that `decode_numeric`
replaces (C0 controls including NUL, DEL, C1 controls). -/
def isControlCodepoint (n : Nat) : Bool :=
  n < 0x20 ∨ (0x7F ≤ n ∧ n ≤ 0x9F)

/-- Modelled from the spec: a numeric character reference value is
valid when it is not the null code point, not beyond the valid Unicode
range, and not a control code. -/
def validCodepoint (n : Nat) : Bool :=
  ¬ n = 0 ∧ n ≤ 0x10FFFF ∧ ¬ isControlCodepoint n

/-- Value of a decimal digit character, zero for non-digits (the
scanner only passes digit runs). -/
def decDigitVal (c : Char) : Nat :=
  if isAsciiDigit c then c.toNat - '0'.toNat else 0

/-- Value of a hexadecimal digit character, zero for non-digits. -/
def hexDigitVal (c : Char) : Nat :=
  if isAsciiDigit c then c.toNat - '0'.toNat
  else if 'a' ≤ c ∧ c ≤ 'f' then c.toNat - 'a'.toNat + 10
  else if 'A' ≤ c ∧ c ≤ 'F' then c.toNat - 'A'.toNat + 10
  else 0

/-- Modelled from the spec: the grammar-permitted digit count of a
numeric character reference (six hexadecimal or seven decimal digits). -/
def digitLimit (is_hex : Bool) : Nat :=
  if is_hex then 6 else 7

/-- Modelled from the spec: the raw value of a numeric character
reference, parsing up to the grammar-permitted digit count. -/
def rawNumericValue (digits : Str) (is_hex : Bool) : Nat :=
  (digits.take (digitLimit is_hex)).foldl
    (fun acc c =>
      if is_hex then acc * 16 + hexDigitVal c else acc * 10 + decDigitVal c) 0

/-- Modelled from the spec: `decode_numeric(digits, is_hex)` parses up
to the grammar-permitted digit count and replaces invalid or
out-of-range code points (control codes, values above the valid
Unicode range, and the null code point) with the Unicode replacement
character.  Total, never an error. -/
def decode_numeric (digits : Str) (is_hex : Bool) : Nat :=
  let v := rawNumericValue digits is_hex
  if validCodepoint v then v else replacement_codepoint

/-- Code point to character, guarding the scalar-value gaps. -/
def codepointChar (n : Nat) : Char :=
  if n.isValidChar then Char.ofNat n else '�'

/-- Modelled from the spec: a small cut of the static named-entity
table (the real table holds several thousand generated entries); each
name maps to its expanded character sequence. -/
def namedEntities : List (Str × Str) :=
  [("amp".toList, "&".toList), ("lt".toList, "<".toList),
   ("gt".toList, ">".toList), ("quot".toList, "\"".toList),
   ("apos".toList, "'".toList), ("nbsp".toList, " ".toList),
   ("copy".toList, "©".toList)]

/-- Modelled from the spec: `decode_named` looks the name up in the
static table. -/
def decode_named (name : Str) : Option Str :=
  (namedEntities.find? (fun e => e.1 = name)).map (·.2)

/-! ## Link reference definition table (modelled from the spec §3) -/

/-- Table entries: (normalized label, destination, title). -/
abbrev RefTable := List (Str × Str × Str)

/-- Lookup by normalized label; first entry wins. -/
def lookupRef (tbl : RefTable) (key : Str) : Option (Str × Str) :=
  match tbl with
  | [] => none
  | (l, d, t) :: rest => if l = key then some (d, t) else lookupRef rest key

/-- Modelled from the spec: entries are write-once per unique
normalized label; an insert whose label is already present is
discarded (first definition wins). -/
def insertRef (tbl : RefTable) (l d t : Str) : RefTable :=
  if (lookupRef tbl l).isSome then tbl else tbl ++ [(l, d, t)]

/-- Fold a definition list into a table, first definition winning. -/
def buildRefTable (defs : List (Str × Str × Str)) : RefTable :=
  defs.foldl (fun tb dt => insertRef tb dt.1 dt.2.1 dt.2.2) []

/-- ASCII lower-casing for label normalization. -/
def asciiLower (c : Char) : Char :=
  if 'A' ≤ c ∧ c ≤ 'Z' then Char.ofNat (c.toNat + 32) else c

/-- Split a string at whitespace characters (empty pieces kept). -/
def splitWS : Str → List Str
  | [] => [[]]
  | c :: rest =>
      if isWhitespaceChar c then [] :: splitWS rest
      else
        match splitWS rest with
        | w :: ws => (c :: w) :: ws
        | [] => [[c]]

/-- The whitespace-separated words of a string. -/
def wordsOf (s : Str) : List Str :=
  (splitWS s).filter (fun w => ¬ w = [])

/-- Modelled from the spec: link label normalization, case-folded and
whitespace-collapsed. -/
def normalizeLabel (s : Str) : Str :=
  List.intercalate [' '] (wordsOf (s.map asciiLower))

/-! ## Link reference definition recognition (modelled from the spec §4.2) -/

/-- Drop leading space characters of a line. -/
def dropLeadingSpaces (s : Str) : Str :=
  s.dropWhile (fun c => c = ' ')

/-- Take characters up to (excluding) the first occurrence of `stop`,
returning the prefix and the remainder after `stop`; `none` when
`stop` does not occur. -/
def takeUntilChar (stop : Char) : Str → Option (Str × Str)
  | [] => none
  | c :: rest =>
      if c = stop then some ([], rest)
      else (takeUntilChar stop rest).map (fun p => (c :: p.1, p.2))

/-- Modelled from the spec: recognition of a single-line link
reference definition block, `[label]: destination "title"` with an
optional title; yields the (normalized label, destination, title)
triple, or `none` when the line is not a definition. -/
def parseRefDef (line : Str) : Option (Str × Str × Str) :=
  match dropLeadingSpaces line with
  | '[' :: rest =>
      match takeUntilChar ']' rest with
      | some (label, ':' :: rest2) =>
          if label.any (fun c => ¬ isWhitespaceChar c) ∧ ¬ label.contains '[' then
            let rest3 := rest2.dropWhile isWhitespaceChar
            let dest := rest3.takeWhile (fun c => ¬ isWhitespaceChar c)
            let rest4 := (rest3.dropWhile (fun c => ¬ isWhitespaceChar c)).dropWhile isWhitespaceChar
            if dest = [] then none
            else
              match rest4 with
              | [] => some (normalizeLabel label, dest, [])
              | '"' :: t =>
                  match takeUntilChar '"' t with
                  | some (title, rest5) =>
                      if rest5.dropWhile isWhitespaceChar = [] then
                        some (normalizeLabel label, dest, title)
                      else none
                  | none => none
              | _ => none
          else none
      | _ => none
  | _ => none

/-! ## Inline AST (modelled from the spec §3 and §4.3) -/

mutual
/-- Modelled from the spec: a resolved inline element of a leaf
block's content. -/
inductive Inline where
  | text (s : Str)
  | code (s : Str)
  | rawHtml (s : Str)
  | softBreak
  | hardBreak
  | emph (xs : Inlines)
  | strong (xs : Inlines)
  | link (dest title : Str) (xs : Inlines)
  | image (dest title : Str) (xs : Inlines)
  deriving DecidableEq
/-- A sequence of inline elements. -/
inductive Inlines where
  | nil
  | cons (x : Inline) (xs : Inlines)
  deriving DecidableEq
end

mutual
/-- Literal character content of an inline (used for shortcut link
labels). -/
def Inline.flat : Inline → Str
  | .text s => s
  | .code s => s
  | .rawHtml s => s
  | .softBreak => ['\n']
  | .hardBreak => ['\n']
  | .emph xs => xs.flat
  | .strong xs => xs.flat
  | .link _ _ xs => xs.flat
  | .image _ _ xs => xs.flat
/-- Literal character content of an inline sequence. -/
def Inlines.flat : Inlines → Str
  | .nil => []
  | .cons x xs => x.flat ++ xs.flat
end

/-- Convert a list of inlines to an inline sequence. -/
def toInlines : List Inline → Inlines
  | [] => .nil
  | x :: xs => .cons x (toInlines xs)

/-- Merge adjacent literal text runs into single text inlines. -/
def mergeTexts : List Inline → List Inline
  | [] => []
  | .text a :: rest =>
      match mergeTexts rest with
      | .text b :: out => .text (a ++ b) :: out
      | out => .text a :: out
  | x :: rest => x :: mergeTexts rest

/-! ## Flanking rules and delimiter runs (modelled from the spec §4.3) -/

/-- Modelled from the spec: a run is left-flanking when it is not
followed by whitespace, and either not followed by punctuation, or
followed by punctuation while preceded by whitespace or punctuation.
The characters just before and after the run are given; buffer
boundaries count as whitespace. -/
def leftFlanking (prev next : Char) : Bool :=
  ¬ isWhitespaceChar next ∧
    (¬ isPunctChar next ∨ (isWhitespaceChar prev ∨ isPunctChar prev))

/-- Modelled from the spec: the mirror of `leftFlanking`. -/
def rightFlanking (prev next : Char) : Bool :=
  ¬ isWhitespaceChar prev ∧
    (¬ isPunctChar prev ∨ (isWhitespaceChar next ∨ isPunctChar next))

/-- Modelled from the spec: `(canOpen, canClose)` of a delimiter run.
An asterisk run can open when left-flanking and close when
right-flanking; the asymmetric underscore rule additionally forbids
opening or closing mid-word. -/
def delimFlags (ch prev next : Char) : Bool × Bool :=
  let lf := leftFlanking prev next
  let rf := rightFlanking prev next
  if ch = '_' then
    (lf ∧ (¬ rf ∨ isPunctChar prev), rf ∧ (¬ lf ∨ isPunctChar next))
  else (lf, rf)

/-- Nodes of the delimiter-stack pass: already-resolved inlines
interleaved with pending delimiter runs. -/
inductive ENode where
  | done (i : Inline)
  | delim (ch : Char) (n : Nat) (canOpen canClose : Bool)
  deriving DecidableEq

/-- A never-matched delimiter run degrades to literal text. -/
def enodeToInline : ENode → Inline
  | .done i => i
  | .delim ch n _ _ => .text (List.replicate n ch)

/-- Modelled from the spec: the CommonMark multiple-of-3 restriction on
matching an opener and closer run. -/
def mod3Forbidden (openerLen closerLen : Nat)
    (closerCanOpen openerCanClose : Bool) : Bool :=
  (closerCanOpen ∨ openerCanClose) ∧ (openerLen + closerLen) % 3 = 0 ∧
    ¬ (openerLen % 3 = 0 ∧ closerLen % 3 = 0)

/-- Whether a node is an opener usable for the given closer run. -/
def isOpenerFor (ch : Char) (closerLen : Nat) (closerCanOpen : Bool) :
    ENode → Bool
  | .delim ch' n' canOpen canClose =>
      ch' = ch ∧ canOpen ∧ ¬ mod3Forbidden n' closerLen closerCanOpen canClose
  | .done _ => false

/-- Index of the nearest usable opener in the nodes before the closer
(scanning backward). -/
def findOpenerIdx (before : List ENode) (ch : Char) (closerLen : Nat)
    (closerCanOpen : Bool) : Option Nat :=
  (before.reverse.findIdx? (isOpenerFor ch closerLen closerCanOpen)).map
    (fun k => before.length - 1 - k)

/-- Modelled from the spec: walk the node list left to right; the
first potential closer that has a usable opener before it yields the
match `(openerIdx, closerIdx)`. -/
def findMatchAux (before : List ENode) : List ENode → Option (Nat × Nat)
  | [] => none
  | e :: rest =>
      match e with
      | .delim ch n _canOpen canClose =>
          if canClose then
            match findOpenerIdx before ch n _canOpen with
            | some i => some (i, before.length)
            | none => findMatchAux (before ++ [e]) rest
          else findMatchAux (before ++ [e]) rest
      | .done _ => findMatchAux (before ++ [e]) rest

/-- Find the first matchable opener/closer pair. -/
def findMatch (nodes : List ENode) : Option (Nat × Nat) :=
  findMatchAux [] nodes

/-- Finalize a node segment to inlines (unmatched delimiters become
literal text, adjacent text runs merge). -/
def finalizeNodes (ns : List ENode) : List Inline :=
  mergeTexts (ns.map enodeToInline)

/-- Modelled from the spec: consume a matched opener/closer pair,
preferring strong (double) emphasis when both run lengths allow;
the nodes between them become the children of the new emphasis node,
and leftover delimiter characters stay as shorter runs. -/
def applyMatch (nodes : List ENode) (i j : Nat) : List ENode :=
  match nodes.get? i, nodes.get? j with
  | some (.delim ch ni oi ci), some (.delim ch2 nj oj cj) =>
      let use := if 2 ≤ ni ∧ 2 ≤ nj then 2 else 1
      let inner := toInlines (finalizeNodes ((nodes.drop (i + 1)).take (j - i - 1)))
      let wrapped : Inline := if use = 2 then .strong inner else .emph inner
      nodes.take i
        ++ (if use < ni then [ENode.delim ch (ni - use) oi ci] else [])
        ++ [ENode.done wrapped]
        ++ (if use < nj then [ENode.delim ch2 (nj - use) oj cj] else [])
        ++ nodes.drop (j + 1)
  | _, _ => nodes

/-- Fuel bound for the emphasis pass: total delimiter characters. -/
def delimFuel (ns : List ENode) : Nat :=
  (ns.map (fun e => match e with | .delim _ n _ _ => n | .done _ => 0)).sum + 1

/-- Modelled from the spec: repeat matching until no opener/closer
pair remains. -/
def emphLoop : Nat → List ENode → List ENode
  | 0, ns => ns
  | fuel + 1, ns =>
      match findMatch ns with
      | none => ns
      | some (i, j) => emphLoop fuel (applyMatch ns i j)

/-! ## Inline token scan (modelled from the spec §4.3) -/

/-- Tokens of the single left-to-right inline scan. -/
inductive Tok where
  | text (s : Str)
  | code (s : Str)
  | rawHtml (s : Str)
  | softBreak
  | hardBreak
  | delim (ch : Char) (n : Nat) (canOpen canClose : Bool)
  | bracketOpen (isImage : Bool)
  | resolved (i : Inline)
  deriving DecidableEq

/-- Literal character content of a token (shortcut link labels). -/
def Tok.rawText : Tok → Str
  | .text s => s
  | .code s => s
  | .rawHtml s => s
  | .softBreak => ['\n']
  | .hardBreak => ['\n']
  | .delim ch n _ _ => List.replicate n ch
  | .bracketOpen img => if img then ['!', '['] else ['[']
  | .resolved i => i.flat

/-- Convert a scanned token to a delimiter-pass node. -/
def Tok.toENode : Tok → ENode
  | .text s => .done (.text s)
  | .code s => .done (.code s)
  | .rawHtml s => .done (.rawHtml s)
  | .softBreak => .done .softBreak
  | .hardBreak => .done .hardBreak
  | .delim ch n o c => .delim ch n o c
  | .bracketOpen img => .done (.text (if img then ['!', '['] else ['[']))
  | .resolved i => .done i

/-- Run the delimiter-stack pass over scanned tokens and finalize. -/
def toksToInlines (toks : List Tok) : Inlines :=
  let ns := toks.map Tok.toENode
  toInlines (finalizeNodes (emphLoop (delimFuel ns) ns))

/-- Length of the leading run of a given character. -/
def countLeading (c : Char) (s : Str) : Nat :=
  (s.takeWhile (fun d => d = c)).length

/-- Modelled from the spec: a code span closes at the next equal-length
backtick run; returns the raw content and the remaining input, or
`none` when no closing run exists. -/
def findCodeClose : Nat → Nat → Str → Option (Str × Str)
  | 0, _, _ => none
  | _, _, [] => none
  | fuel + 1, n, c :: rest =>
      if c = '`' then
        let run := 1 + countLeading '`' rest
        let after := rest.drop (run - 1)
        if run = n then some ([], after)
        else
          match findCodeClose fuel n after with
          | some (content, rem) => some (List.replicate run '`' ++ content, rem)
          | none => none
      else
        match findCodeClose fuel n rest with
        | some (content, rem) => some (c :: content, rem)
        | none => none

/-- Modelled from the spec: code span content normalization — line
endings inside become single spaces, then one leading and one trailing
space are stripped when both the first and last characters are spaces
and the content is not all spaces. -/
def codeProcess (s : Str) : Str :=
  let t := s.map (fun c => if c = '\n' then ' ' else c)
  if t.head? = some ' ' ∧ t.getLast? = some ' ' ∧ t.any (fun c => ¬ c = ' ')
  then (t.drop 1).dropLast
  else t

/-- Modelled from the spec: scan a character reference after the
ampersand; named or numeric (decimal and hexadecimal), returning the
expanded characters and the remaining input, or `none` when the text
is not a reference (the ampersand then stays literal). -/
def scanEntity (s : Str) : Option (Str × Str) :=
  match s with
  | '#' :: t =>
      match t with
      | 'x' :: u =>
          let ds := u.takeWhile (fun c =>
            isAsciiDigit c ∨ ('a' ≤ c ∧ c ≤ 'f') ∨ ('A' ≤ c ∧ c ≤ 'F'))
          if 1 ≤ ds.length ∧ ds.length ≤ 6 then
            match u.drop ds.length with
            | ';' :: rem => some ([codepointChar (decode_numeric ds true)], rem)
            | _ => none
          else none
      | _ =>
          let ds := t.takeWhile isAsciiDigit
          if 1 ≤ ds.length ∧ ds.length ≤ 7 then
            match t.drop ds.length with
            | ';' :: rem => some ([codepointChar (decode_numeric ds false)], rem)
            | _ => none
          else none
  | _ =>
      let name := s.takeWhile isAsciiAlphaNum
      if 1 ≤ name.length then
        match s.drop name.length with
        | ';' :: rem => (decode_named name).map (fun cs => (cs, rem))
        | _ => none
      else none

/-- Scheme test of an angle-bracket autolink body. -/
def isAutolinkURI (body : Str) : Bool :=
  let scheme := body.takeWhile isAsciiAlpha
  2 ≤ scheme.length ∧ (body.drop scheme.length).head? = some ':'

/-- Tag-like test of an angle-bracket body (raw inline HTML). -/
def isTagLike (body : Str) : Bool :=
  match body with
  | c :: _ => isAsciiAlpha c ∨ c = '/' ∨ c = '!' ∨ c = '?'
  | [] => false

/-- Modelled from the spec: recognize an autolink or a raw inline HTML
fragment after an opening angle bracket. -/
def scanAngle (s : Str) : Option (Tok × Str) :=
  let body := s.takeWhile (fun c => ¬ c = '>' ∧ ¬ c = '<' ∧ ¬ isWhitespaceChar c)
  match s.drop body.length with
  | '>' :: rem =>
      if isAutolinkURI body then
        some (.resolved (.link body [] (.cons (.text body) .nil)), rem)
      else if isTagLike body then
        some (.rawHtml ('<' :: body ++ ['>']), rem)
      else none
  | _ => none

/-- Split the (reversed) token accumulator at the innermost bracket
marker: tokens above it (still reversed), the image flag, tokens
below. -/
def splitAtBracket : List Tok → Option (List Tok × Bool × List Tok)
  | [] => none
  | .bracketOpen img :: below => some ([], img, below)
  | t :: below =>
      (splitAtBracket below).map (fun p => (t :: p.1, p.2.1, p.2.2))

/-- Literal content of a token list (link label of a shortcut or
collapsed reference). -/
def toksRaw (toks : List Tok) : Str :=
  (toks.map Tok.rawText).flatten

/-- Modelled from the spec: parse the `(destination "title")` tail of
an inline link, the opening parenthesis already consumed. -/
def parseInlineLinkTail (s : Str) : Option (Str × Str × Str) :=
  let s1 := s.dropWhile isWhitespaceChar
  let dest := s1.takeWhile (fun c => ¬ isWhitespaceChar c ∧ ¬ c = ')')
  let s2 := (s1.drop dest.length).dropWhile isWhitespaceChar
  match s2 with
  | ')' :: rem => some (dest, [], rem)
  | '"' :: t =>
      match takeUntilChar '"' t with
      | some (title, rest) =>
          match rest.dropWhile isWhitespaceChar with
          | ')' :: rem => some (dest, title, rem)
          | _ => none
      | none => none
  | _ => none

/-- Modelled from the spec: full and collapsed reference forms, then
the shortcut form, resolved against the reference table. -/
def resolveRefForm (tbl : RefTable) (inner : List Tok) (rest : Str) :
    Option (Str × Str × Str) :=
  let shortcut :=
    (lookupRef tbl (normalizeLabel (toksRaw inner))).map
      (fun dt => (dt.1, dt.2, rest))
  match rest with
  | '[' :: t =>
      match takeUntilChar ']' t with
      | some (label, rem) =>
          let key := if label.any (fun c => ¬ isWhitespaceChar c)
                     then label else toksRaw inner
          (lookupRef tbl (normalizeLabel key)).map (fun dt => (dt.1, dt.2, rem))
      | none => shortcut
  | _ => shortcut

/-- Modelled from the spec: on a closing bracket, attempt in order the
inline form, then reference forms, against the bracket content. -/
def resolveLink (tbl : RefTable) (inner : List Tok) (rest : Str) :
    Option (Str × Str × Str) :=
  match rest with
  | '(' :: t =>
      match parseInlineLinkTail t with
      | some r => some r
      | none => resolveRefForm tbl inner rest
  | _ => resolveRefForm tbl inner rest

/-- Modelled from the spec: creating a link deactivates enclosing link
openers (brackets do not nest as links); image openers stay active. -/
def deactivateLinkOpeners (toks : List Tok) : List Tok :=
  toks.map (fun t =>
    match t with
    | .bracketOpen false => .text ['[']
    | x => x)

/-- Modelled from the spec: the single left-to-right inline scan.
Produces the flat token stream: backslash escapes, code spans,
character references, delimiter runs with flanking flags, bracket
markers resolved against the reference table on the closing bracket,
autolinks and raw inline HTML, hard and soft breaks.  The accumulator
holds the tokens scanned so far in reverse order; `prev` is the last
scanned character (buffer start counts as whitespace).  The fuel is
instantiated with more than the input length, which the scan cannot
exhaust since every step consumes at least one character. -/
def scanToks (tbl : RefTable) : Nat → Char → List Tok → Str → List Tok
  | 0, _, acc, rest =>
      acc.reverse ++ (if rest = [] then [] else [Tok.text rest])
  | _, _, acc, [] => acc.reverse
  | fuel + 1, prev, acc, c :: rest =>
      if c = '\\' then
        match rest with
        | [] => scanToks tbl fuel '\\' (.text ['\\'] :: acc) []
        | d :: rest2 =>
            if d = '\n' then scanToks tbl fuel '\n' (.hardBreak :: acc) rest2
            else if isPunctChar d then scanToks tbl fuel d (.text [d] :: acc) rest2
            else scanToks tbl fuel '\\' (.text ['\\'] :: acc) rest
      else if c = '`' then
        let n := 1 + countLeading '`' rest
        let after := rest.drop (n - 1)
        match findCodeClose (after.length + 1) n after with
        | some (content, rem) =>
            scanToks tbl fuel '`' (.code (codeProcess content) :: acc) rem
        | none =>
            scanToks tbl fuel '`' (.text (List.replicate n '`') :: acc) after
      else if c = '&' then
        match scanEntity rest with
        | some (decoded, rem) =>
            scanToks tbl fuel ((decoded.getLast?).getD '&') (.text decoded :: acc) rem
        | none => scanToks tbl fuel '&' (.text ['&'] :: acc) rest
      else if c = '*' ∨ c = '_' then
        let n := 1 + countLeading c rest
        let after := rest.drop (n - 1)
        let next := (after.head?).getD '\n'
        let flags := delimFlags c prev next
        scanToks tbl fuel c (.delim c n flags.1 flags.2 :: acc) after
      else if c = '[' then
        scanToks tbl fuel '[' (.bracketOpen false :: acc) rest
      else if c = '!' then
        match rest with
        | '[' :: rest2 => scanToks tbl fuel '[' (.bracketOpen true :: acc) rest2
        | _ => scanToks tbl fuel '!' (.text ['!'] :: acc) rest
      else if c = ']' then
        match splitAtBracket acc with
        | none => scanToks tbl fuel ']' (.text [']'] :: acc) rest
        | some (innerRev, img, below) =>
            match resolveLink tbl innerRev.reverse rest with
            | some (d, ti, rem) =>
                let node : Inline :=
                  if img then .image d ti (toksToInlines innerRev.reverse)
                  else .link d ti (toksToInlines innerRev.reverse)
                let below2 := if img then below else deactivateLinkOpeners below
                scanToks tbl fuel ']' (.resolved node :: below2) rem
            | none =>
                scanToks tbl fuel ']'
                  (.text [']'] ::
                    (innerRev ++ (Tok.text (if img then ['!', '['] else ['[']) :: below)))
                  rest
      else if c = '<' then
        match scanAngle rest with
        | some (tok, rem) => scanToks tbl fuel '>' (tok :: acc) rem
        | none => scanToks tbl fuel '<' (.text ['<'] :: acc) rest
      else if c = ' ' then
        let n := 1 + countLeading ' ' rest
        let after := rest.drop (n - 1)
        match after with
        | '\n' :: rest2 =>
            if 2 ≤ n then scanToks tbl fuel '\n' (.hardBreak :: acc) rest2
            else scanToks tbl fuel '\n' (.softBreak :: acc) rest2
        | _ => scanToks tbl fuel ' ' (.text (List.replicate n ' ') :: acc) after
      else if c = '\n' then
        scanToks tbl fuel '\n' (.softBreak :: acc) rest
      else
        scanToks tbl fuel c (.text [c] :: acc) rest

/-- Modelled from the spec: the Inline Span Parser — given one leaf
block's raw text and the complete reference table, scan to tokens and
run the delimiter-stack pass. -/
def inlineParse (tbl : RefTable) (text : Str) : Inlines :=
  toksToInlines (scanToks tbl (text.length + 1) '\n' [] text)

/-! ## Block structure parser (modelled from the spec §4.2) -/

/-- Modelled from the spec: line endings are normalized — CRLF and
bare CR become LF. -/
def normalizeNewlines : Str → Str
  | [] => []
  | '\r' :: '\n' :: rest => '\n' :: normalizeNewlines rest
  | '\r' :: rest => '\n' :: normalizeNewlines rest
  | c :: rest => c :: normalizeNewlines rest

/-- Split the normalized input into lines at LF. -/
def splitLines : Str → List Str
  | [] => [[]]
  | '\n' :: rest => [] :: splitLines rest
  | c :: rest =>
      match splitLines rest with
      | l :: ls => (c :: l) :: ls
      | [] => [[c]]

/-- A line of only whitespace is blank. -/
def isBlankLine (s : Str) : Bool :=
  s.all isWhitespaceChar

/-- Modelled from the spec: a thematic break line — at least three
matching asterisk, hyphen or underscore characters, spaces and tabs
allowed in between. -/
def isThematicBreakLine (s : Str) : Bool :=
  let t := s.filter (fun c => ¬ c = ' ' ∧ ¬ c = '\t')
  3 ≤ t.length ∧
    (t.all (fun c => c = '*') ∨ t.all (fun c => c = '-') ∨ t.all (fun c => c = '_'))

/-- Trim trailing whitespace of a line or assembled text. -/
def trimTrailingWS (s : Str) : Str :=
  (s.reverse.dropWhile isWhitespaceChar).reverse

/-- Modelled from the spec: an ATX heading line — one to six hash
marks followed by a space (or line end), yielding the level and the
trimmed heading text. -/
def atxHeading (s : Str) : Option (Nat × Str) :=
  let t := dropLeadingSpaces s
  let n := countLeading '#' t
  if 1 ≤ n ∧ n ≤ 6 then
    match t.drop n with
    | [] => some (n, [])
    | c :: rest =>
        if c = ' ' then some (n, trimTrailingWS (dropLeadingSpaces rest))
        else none
  else none

/-- Modelled from the spec: a block quote line starts with the `>`
marker. -/
def isQuoteLine (s : Str) : Bool :=
  match dropLeadingSpaces s with
  | '>' :: _ => true
  | _ => false

/-- Modelled from the spec: strip one block quote marker and the
optional single following space. -/
def stripQuoteMarker (s : Str) : Str :=
  match dropLeadingSpaces s with
  | '>' :: ' ' :: rest => rest
  | '>' :: rest => rest
  | _ => s

/-- Strip nested block quote markers (for the global reference-
definition collection); the fuel is the line length, enough for every
nesting depth. -/
def stripAllQuoteMarkers : Nat → Str → Str
  | 0, s => s
  | fuel + 1, s => if isQuoteLine s then stripAllQuoteMarkers fuel (stripQuoteMarker s) else s

/-- Modelled from the spec: a non-blank line continues an open
paragraph when it does not match a new-block-start pattern. -/
def isParaContLine (s : Str) : Bool :=
  ¬ isBlankLine s ∧ ¬ isThematicBreakLine s ∧ (atxHeading s).isNone ∧
    ¬ isQuoteLine s ∧ (parseRefDef s).isNone

/-- Assemble a paragraph's raw text from its lines: leading spaces of
each line dropped, lines joined with LF, trailing whitespace trimmed. -/
def joinLines (grp : List Str) : Str :=
  trimTrailingWS (List.intercalate ['\n'] (grp.map dropLeadingSpaces))

mutual
/-- Modelled from the spec: a block node; the subset covers the leaf
blocks (paragraph, ATX heading, thematic break) and the block quote as
the representative container; leaf text stays raw until the inline
pass. -/
inductive Block where
  | para (text : Str)
  | heading (lvl : Nat) (text : Str)
  | thematicBreak
  | quote (children : Blocks)
  deriving DecidableEq
/-- A sequence of sibling blocks. -/
inductive Blocks where
  | nil
  | cons (b : Block) (bs : Blocks)
  deriving DecidableEq
end

mutual
/-- Number of blocks in a block tree (each quote counts itself plus
its children). -/
def Block.count : Block → Nat
  | .para _ => 1
  | .heading _ _ => 1
  | .thematicBreak => 1
  | .quote bs => 1 + bs.count
/-- Number of blocks in a sibling sequence. -/
def Blocks.count : Blocks → Nat
  | .nil => 0
  | .cons b bs => b.count + bs.count
end

/-- Modelled from the spec: the line-driven block structure pass.
Block-start patterns are tested in priority order (thematic break, ATX
heading, block quote marker, link reference definition); remaining
text lines accumulate into the innermost open paragraph; a blank line
closes the paragraph; quoted line groups are stripped of their marker
and parsed recursively.  The fuel is instantiated with a bound the
recursion cannot exhaust (each level consumes a line or strips a
marker character). -/
def parseBlocks : Nat → List Str → Blocks
  | 0, _ => .nil
  | _, [] => .nil
  | fuel + 1, l :: ls =>
      if isBlankLine l then parseBlocks fuel ls
      else if isThematicBreakLine l then .cons .thematicBreak (parseBlocks fuel ls)
      else
        match atxHeading l with
        | some nt => .cons (.heading nt.1 nt.2) (parseBlocks fuel ls)
        | none =>
            if isQuoteLine l then
              let grp := l :: ls.takeWhile isQuoteLine
              let rest := ls.dropWhile isQuoteLine
              .cons (.quote (parseBlocks fuel (grp.map stripQuoteMarker)))
                (parseBlocks fuel rest)
            else if (parseRefDef l).isSome then parseBlocks fuel ls
            else
              let grp := l :: ls.takeWhile isParaContLine
              let rest := ls.dropWhile isParaContLine
              .cons (.para (joinLines grp)) (parseBlocks fuel rest)

/-- Modelled from the spec: the Block Structure Parser collects the
complete Link Reference Definition Table from the whole document as a
side effect (quote markers stripped), before any inline content is
resolved; first definition wins. -/
def collectRefDefs (lines : List Str) : RefTable :=
  buildRefTable (lines.filterMap (fun l => parseRefDef (stripAllQuoteMarkers l.length l)))

/-! ## Events (modelled from the spec §3) -/

/-- Kinds of inline spans. -/
inductive SpanKind where
  | emph
  | strong
  | link (dest title : Str)
  | image (dest title : Str)
  deriving DecidableEq

/-- Inline-level events. -/
inductive InlineEvent where
  | text (s : Str)
  | codeSpan (s : Str)
  | rawHTML (s : Str)
  | softBreak
  | hardBreak
  | spanStart (k : SpanKind)
  | spanEnd (k : SpanKind)
  deriving DecidableEq

/-- Kinds of blocks carried by block events. -/
inductive BlockKind where
  | doc
  | para
  | heading (lvl : Nat)
  | quote
  | thematicBreak
  deriving DecidableEq

/-- Modelled from the spec: the tagged event variant delivered to the
consumer in document order. -/
inductive Event where
  | blockStart (k : BlockKind)
  | blockEnd (k : BlockKind)
  | inline (e : InlineEvent)
  deriving DecidableEq

mutual
/-- Flatten a resolved inline into its event run. -/
def Inline.events : Inline → List InlineEvent
  | .text s => [.text s]
  | .code s => [.codeSpan s]
  | .rawHtml s => [.rawHTML s]
  | .softBreak => [.softBreak]
  | .hardBreak => [.hardBreak]
  | .emph xs => .spanStart .emph :: xs.events ++ [.spanEnd .emph]
  | .strong xs => .spanStart .strong :: xs.events ++ [.spanEnd .strong]
  | .link d t xs => .spanStart (.link d t) :: xs.events ++ [.spanEnd (.link d t)]
  | .image d t xs => .spanStart (.image d t) :: xs.events ++ [.spanEnd (.image d t)]
/-- Flatten an inline sequence into its event run. -/
def Inlines.events : Inlines → List InlineEvent
  | .nil => []
  | .cons x xs => x.events ++ xs.events
end

/-- Inline events of a leaf block's raw text. -/
def leafEvents (tbl : RefTable) (text : Str) : List Event :=
  (Inlines.events (inlineParse tbl text)).map Event.inline

mutual
/-- Modelled from the spec: the event run of one block — exactly one
BlockStart/BlockEnd pair enclosing the block's content. -/
def Block.events (tbl : RefTable) : Block → List Event
  | .para t => .blockStart .para :: leafEvents tbl t ++ [.blockEnd .para]
  | .heading n t =>
      .blockStart (.heading n) :: leafEvents tbl t ++ [.blockEnd (.heading n)]
  | .thematicBreak => [.blockStart .thematicBreak, .blockEnd .thematicBreak]
  | .quote bs => .blockStart .quote :: Blocks.events tbl bs ++ [.blockEnd .quote]
/-- Event run of a sibling sequence. -/
def Blocks.events (tbl : RefTable) : Blocks → List Event
  | .nil => []
  | .cons b bs => Block.events tbl b ++ Blocks.events tbl bs
end

/-- The document's normalized lines. -/
def docLines (input : Str) : List Str :=
  splitLines (normalizeNewlines input)

/-- The complete reference table of a document. -/
def docRefTable (input : Str) : RefTable :=
  collectRefDefs (docLines input)

/-- Fuel bound of the block pass: input length plus line count. -/
def blockFuel (input : Str) : Nat :=
  input.length + (docLines input).length + 1

/-- The document's block tree. -/
def parsedBlocks (input : Str) : Blocks :=
  parseBlocks (blockFuel input) (docLines input)

/-- Modelled from the spec: `parse(input, sink)` — the Event Driver
runs the block pass over the whole document first (collecting the
complete reference table), then the inline pass per leaf block, and
delivers the event sequence in document order, the document block
enclosing everything. -/
def parseEvents (input : Str) : List Event :=
  .blockStart .doc ::
    Blocks.events (docRefTable input) (parsedBlocks input) ++ [.blockEnd .doc]

/-! ## HTML renderer (modelled from the spec §4.5) -/

/-- Modelled from the spec: markup of one inline event — text content
escaped, code span content escaped inside its tags, raw HTML passed
through verbatim, attribute values escaped with the attribute rule. -/
def renderInlineEvent : InlineEvent → Str
  | .text s => escapeHTML s
  | .codeSpan s => "<code>".toList ++ escapeHTML s ++ "</code>".toList
  | .rawHTML s => s
  | .softBreak => ['\n']
  | .hardBreak => "<br>\n".toList
  | .spanStart .emph => "<em>".toList
  | .spanEnd .emph => "</em>".toList
  | .spanStart .strong => "<strong>".toList
  | .spanEnd .strong => "</strong>".toList
  | .spanStart (.link d t) =>
      "<a href=\"".toList ++ escapeAttr d ++ ['"'] ++
        (if t = [] then [] else " title=\"".toList ++ escapeAttr t ++ ['"']) ++ ['>']
  | .spanEnd (.link _ _) => "</a>".toList
  | .spanStart (.image d _) => "<img src=\"".toList ++ escapeAttr d ++ "\" alt=\"".toList
  | .spanEnd (.image _ _) => "\">".toList

/-- Decimal digits of a heading level. -/
def natDigits (n : Nat) : Str :=
  (Nat.toDigits 10 n)

/-- Modelled from the spec: markup of one event; the thematic break is
a void element emitted on its start event. -/
def renderEvent : Event → Str
  | .blockStart .doc => []
  | .blockEnd .doc => []
  | .blockStart .para => "<p>".toList
  | .blockEnd .para => "</p>\n".toList
  | .blockStart (.heading n) => '<' :: 'h' :: natDigits n ++ ['>']
  | .blockEnd (.heading n) => '<' :: '/' :: 'h' :: natDigits n ++ ['>', '\n']
  | .blockStart .quote => "<blockquote>\n".toList
  | .blockEnd .quote => "</blockquote>\n".toList
  | .blockStart .thematicBreak => "<hr>\n".toList
  | .blockEnd .thematicBreak => []
  | .inline e => renderInlineEvent e

/-- Render an event sequence by concatenating per-event markup. -/
def renderEvents (es : List Event) : Str :=
  (es.map renderEvent).flatten

/-- Modelled from the spec: the whole pipeline — parse the input and
serialize the event sequence to HTML. -/
def renderDoc (input : String) : String :=
  ⟨renderEvents (parseEvents input.data)⟩

/-! ## Event well-formedness -/

/-- Stack simulation of the block events: starts push, ends pop their
matching kind, inline events pass through; returns the final stack or
`none` on a mismatched end. -/
def consume : List Event → List BlockKind → Option (List BlockKind)
  | [], st => some st
  | .blockStart k :: es, st => consume es (k :: st)
  | .blockEnd _ :: _, [] => none
  | .blockEnd k :: es, k' :: st => if k = k' then consume es st else none
  | .inline _ :: es, st => consume es st

/-- An event sequence is well formed when the stack simulation ends
with an empty stack. -/
def nestedOK (es : List Event) : Bool :=
  consume es [] = some []

/-- Number of BlockStart events. -/
def countStarts (es : List Event) : Nat :=
  es.countP (fun e => match e with | .blockStart _ => true | _ => false)

/-- Number of BlockEnd events. -/
def countEnds (es : List Event) : Nat :=
  es.countP (fun e => match e with | .blockEnd _ => true | _ => false)

/-! ## Compile-time type-width assertions (src/src/lib.c) -/

/-- Size in bytes of the C type `uint32_t`. -/
def sizeof_uint32 : Nat := 4

/-- Size in bytes of the C type `char`. -/
def sizeof_c_char : Nat := 1

/-- Modelled from the spec: `MD_OFFSET`, the engine's event offset
type, defined in the included header (md4c.h, not under src/) as a
32-bit unsigned integer; its size in bytes. -/
def sizeof_MD_OFFSET : Nat := 4

/-- Modelled from the spec: `MD_SIZE`, the engine's length/size type,
defined in the included header as a 32-bit unsigned integer; its size
in bytes. -/
def sizeof_MD_SIZE : Nat := 4

/-- Modelled from the spec: `MD_CHAR`, the engine's character type,
defined in the included header as `char`; its size in bytes. -/
def sizeof_MD_CHAR : Nat := 1

/-- Bits per byte. -/
def bitsPerByte : Nat := 8

/-- Largest input buffer size addressable by an (offset, length) pair
of the engine's size type. -/
def maxInputBytes : Nat := 2 ^ (bitsPerByte * sizeof_MD_SIZE) - 1

/-- First matching definition of a label in a definition list. -/
def firstDef (defs : List (Str × Str × Str)) (key : Str) : Option (Str × Str) :=
  match defs with
  | [] => none
  | (l, d, t) :: rest => if l = key then some (d, t) else firstDef rest key

/-- Left-biased choice on lookup results. -/
def orE (a b : Option (Str × Str)) : Option (Str × Str) :=
  match a with
  | some x => some x
  | none => b

theorem orE_none (a : Option (Str × Str)) : orE a none = a := by
  cases a <;> rfl

theorem orE_assoc (a b c : Option (Str × Str)) :
    orE (orE a b) c = orE a (orE b c) := by
  cases a <;> rfl

theorem lookupRef_append (t1 t2 : RefTable) (key : Str) :
    lookupRef (t1 ++ t2) key = orE (lookupRef t1 key) (lookupRef t2 key) := by
  induction t1 with
  | nil => rfl
  | cons e t1 ih =>
      obtain ⟨l, d, t⟩ := e
      by_cases h : l = key <;> simp [lookupRef, h, ih, orE]

theorem lookupRef_insertRef (tbl : RefTable) (l d t : Str) (key : Str) :
    lookupRef (insertRef tbl l d t) key =
      orE (lookupRef tbl key) (if l = key then some (d, t) else none) := by
  unfold insertRef
  cases hc : lookupRef tbl l with
  | some v =>
      simp only [hc, Option.isSome_some, if_true]
      by_cases hl : l = key
      · subst hl
        simp [hc, orE]
      · simp [hl, orE_none]
  | none =>
      simp only [hc, Option.isSome_none, Bool.false_eq_true, if_false]
      rw [lookupRef_append]
      by_cases hl : l = key <;> simp [lookupRef, hl]

theorem lookupRef_foldl_insert (defs : List (Str × Str × Str)) :
    ∀ (tbl : RefTable) (key : Str),
      lookupRef (defs.foldl (fun tb dt => insertRef tb dt.1 dt.2.1 dt.2.2) tbl) key =
        orE (lookupRef tbl key) (firstDef defs key) := by
  induction defs with
  | nil => intro tbl key; simp [firstDef, orE_none]
  | cons e ds ih =>
      intro tbl key
      obtain ⟨l, d, t⟩ := e
      rw [List.foldl_cons, ih, lookupRef_insertRef, orE_assoc]
      by_cases hl : l = key <;> simp [firstDef, hl, orE]

theorem lookupRef_buildRefTable (defs : List (Str × Str × Str)) (key : Str) :
    lookupRef (buildRefTable defs) key = firstDef defs key := by
  unfold buildRefTable
  rw [lookupRef_foldl_insert]
  rfl

/-! ## Balance and counting lemmas for the event stream -/

theorem consume_start_cons (k : BlockKind) (es : List Event) (st : List BlockKind) :
    consume (.blockStart k :: es) st = consume es (k :: st) := by
  simp [consume]

theorem consume_end_cons (k : BlockKind) (es : List Event) (st : List BlockKind) :
    consume (.blockEnd k :: es) (k :: st) = consume es st := by
  simp [consume]

theorem consume_inline_cons (e : InlineEvent) (es : List Event) (st : List BlockKind) :
    consume (.inline e :: es) st = consume es st := by
  simp [consume]

theorem consume_inline_append (ies : List InlineEvent) (rest : List Event)
    (st : List BlockKind) :
    consume (ies.map Event.inline ++ rest) st = consume rest st := by
  induction ies with
  | nil => rfl
  | cons e ies ih => rw [List.map_cons, List.cons_append, consume_inline_cons, ih]

theorem leafEvents_eq (tbl : RefTable) (t : Str) :
    leafEvents tbl t = (Inlines.events (inlineParse tbl t)).map Event.inline := rfl

mutual
theorem block_consume_events (tbl : RefTable) (b : Block) (rest : List Event)
    (st : List BlockKind) :
    consume (Block.events tbl b ++ rest) st = consume rest st := by
  cases b with
  | para t =>
      rw [show Block.events tbl (.para t)
            = Event.blockStart .para :: (leafEvents tbl t ++ [.blockEnd .para]) from rfl,
          List.cons_append, consume_start_cons, List.append_assoc, leafEvents_eq,
          consume_inline_append, List.singleton_append, consume_end_cons]
  | heading n t =>
      rw [show Block.events tbl (.heading n t)
            = Event.blockStart (.heading n) :: (leafEvents tbl t ++ [.blockEnd (.heading n)]) from rfl,
          List.cons_append, consume_start_cons, List.append_assoc, leafEvents_eq,
          consume_inline_append, List.singleton_append, consume_end_cons]
  | thematicBreak =>
      rw [show Block.events tbl .thematicBreak
            = [.blockStart .thematicBreak, .blockEnd .thematicBreak] from rfl,
          List.cons_append, consume_start_cons, List.cons_append, consume_end_cons,
          List.nil_append]
  | quote bs =>
      rw [show Block.events tbl (.quote bs)
            = Event.blockStart .quote :: (Blocks.events tbl bs ++ [.blockEnd .quote]) from rfl,
          List.cons_append, consume_start_cons, List.append_assoc,
          blocks_consume_events tbl bs ([Event.blockEnd BlockKind.quote] ++ rest)
            (BlockKind.quote :: st),
          List.singleton_append, consume_end_cons]
theorem blocks_consume_events (tbl : RefTable) (bs : Blocks) (rest : List Event)
    (st : List BlockKind) :
    consume (Blocks.events tbl bs ++ rest) st = consume rest st := by
  cases bs with
  | nil => rfl
  | cons b bs =>
      rw [show Blocks.events tbl (.cons b bs)
            = Block.events tbl b ++ Blocks.events tbl bs from rfl,
          List.append_assoc,
          block_consume_events tbl b (Blocks.events tbl bs ++ rest) st,
          blocks_consume_events tbl bs rest st]
end

theorem countStarts_append (a b : List Event) :
    countStarts (a ++ b) = countStarts a + countStarts b := by
  simp [countStarts, List.countP_append]

theorem countEnds_append (a b : List Event) :
    countEnds (a ++ b) = countEnds a + countEnds b := by
  simp [countEnds, List.countP_append]

theorem countStarts_cons_inline (e : InlineEvent) (es : List Event) :
    countStarts (.inline e :: es) = countStarts es := by
  simp [countStarts, List.countP_cons]

theorem countEnds_cons_inline (e : InlineEvent) (es : List Event) :
    countEnds (.inline e :: es) = countEnds es := by
  simp [countEnds, List.countP_cons]

theorem countStarts_inline (ies : List InlineEvent) :
    countStarts (ies.map Event.inline) = 0 := by
  induction ies with
  | nil => rfl
  | cons e ies ih => rw [List.map_cons, countStarts_cons_inline, ih]

theorem countEnds_inline (ies : List InlineEvent) :
    countEnds (ies.map Event.inline) = 0 := by
  induction ies with
  | nil => rfl
  | cons e ies ih => rw [List.map_cons, countEnds_cons_inline, ih]

mutual
theorem block_countStarts_events (tbl : RefTable) (b : Block) :
    countStarts (Block.events tbl b) = b.count := by
  cases b with
  | para t =>
      rw [show Block.events tbl (.para t)
            = [Event.blockStart .para] ++ leafEvents tbl t ++ [.blockEnd .para] from rfl,
          countStarts_append, countStarts_append, leafEvents_eq, countStarts_inline]
      rfl
  | heading n t =>
      rw [show Block.events tbl (.heading n t)
            = [Event.blockStart (.heading n)] ++ leafEvents tbl t
                ++ [.blockEnd (.heading n)] from rfl,
          countStarts_append, countStarts_append, leafEvents_eq, countStarts_inline]
      rfl
  | thematicBreak => rfl
  | quote bs =>
      rw [show Block.events tbl (.quote bs)
            = [Event.blockStart .quote] ++ Blocks.events tbl bs
                ++ [.blockEnd .quote] from rfl,
          countStarts_append, countStarts_append,
          blocks_countStarts_events tbl bs,
          show countStarts [Event.blockStart BlockKind.quote] = 1 from rfl,
          show countStarts [Event.blockEnd BlockKind.quote] = 0 from rfl,
          show Block.count (.quote bs) = 1 + bs.count from rfl]
      omega
theorem blocks_countStarts_events (tbl : RefTable) (bs : Blocks) :
    countStarts (Blocks.events tbl bs) = bs.count := by
  cases bs with
  | nil => rfl
  | cons b bs =>
      rw [show Blocks.events tbl (.cons b bs)
            = Block.events tbl b ++ Blocks.events tbl bs from rfl,
          countStarts_append, block_countStarts_events tbl b,
          blocks_countStarts_events tbl bs]
      rfl
end

mutual
theorem block_countEnds_events (tbl : RefTable) (b : Block) :
    countEnds (Block.events tbl b) = b.count := by
  cases b with
  | para t =>
      rw [show Block.events tbl (.para t)
            = [Event.blockStart .para] ++ leafEvents tbl t ++ [.blockEnd .para] from rfl,
          countEnds_append, countEnds_append, leafEvents_eq, countEnds_inline]
      rfl
  | heading n t =>
      rw [show Block.events tbl (.heading n t)
            = [Event.blockStart (.heading n)] ++ leafEvents tbl t
                ++ [.blockEnd (.heading n)] from rfl,
          countEnds_append, countEnds_append, leafEvents_eq, countEnds_inline]
      rfl
  | thematicBreak => rfl
  | quote bs =>
      rw [show Block.events tbl (.quote bs)
            = [Event.blockStart .quote] ++ Blocks.events tbl bs
                ++ [.blockEnd .quote] from rfl,
          countEnds_append, countEnds_append,
          blocks_countEnds_events tbl bs,
          show countEnds [Event.blockStart BlockKind.quote] = 0 from rfl,
          show countEnds [Event.blockEnd BlockKind.quote] = 1 from rfl,
          show Block.count (.quote bs) = 1 + bs.count from rfl]
      omega
theorem blocks_countEnds_events (tbl : RefTable) (bs : Blocks) :
    countEnds (Blocks.events tbl bs) = bs.count := by
  cases bs with
  | nil => rfl
  | cons b bs =>
      rw [show Blocks.events tbl (.cons b bs)
            = Block.events tbl b ++ Blocks.events tbl bs from rfl,
          countEnds_append, block_countEnds_events tbl b,
          blocks_countEnds_events tbl bs]
      rfl
end

/-! ## Claims -/

/-- Claim C1: for every input byte sequence, `parse` terminates (the
model is a total function of the input) and produces a well-formed,
properly nested event sequence; it never fails with a parse error,
since every byte sequence has a defined parse under the total grammar. -/
theorem claim_C1 (input : Str) : nestedOK (parseEvents input) = true := by
  have h : consume (parseEvents input) [] = some [] := by
    unfold parseEvents
    rw [List.cons_append, consume_start_cons,
        blocks_consume_events (docRefTable input) (parsedBlocks input)
          [Event.blockEnd BlockKind.doc] [BlockKind.doc],
        consume_end_cons]
    rfl
  unfold nestedOK
  rw [h]
  rfl

/-- Claim C2: for every input, the event sequence contains exactly one
BlockStart and one BlockEnd event per recognized block (the blocks of
the parsed tree plus the enclosing document block), and the events are
correctly nested like balanced parentheses. -/
theorem claim_C2 (input : Str) :
    countStarts (parseEvents input) = Blocks.count (parsedBlocks input) + 1 ∧
    countEnds (parseEvents input) = Blocks.count (parsedBlocks input) + 1 ∧
    nestedOK (parseEvents input) = true := by
  have hsplit : parseEvents input
      = [Event.blockStart .doc] ++ Blocks.events (docRefTable input) (parsedBlocks input)
          ++ [Event.blockEnd .doc] := rfl
  refine ⟨?_, ?_, ?_⟩
  · rw [hsplit, countStarts_append, countStarts_append,
        blocks_countStarts_events (docRefTable input) (parsedBlocks input),
        show countStarts [Event.blockStart BlockKind.doc] = 1 from rfl,
        show countStarts [Event.blockEnd BlockKind.doc] = 0 from rfl]
    omega
  · rw [hsplit, countEnds_append, countEnds_append,
        blocks_countEnds_events (docRefTable input) (parsedBlocks input),
        show countEnds [Event.blockStart BlockKind.doc] = 0 from rfl,
        show countEnds [Event.blockEnd BlockKind.doc] = 1 from rfl]
    omega
  · have h : consume (parseEvents input) [] = some [] := by
      unfold parseEvents
      rw [List.cons_append, consume_start_cons,
          blocks_consume_events (docRefTable input) (parsedBlocks input)
            [Event.blockEnd BlockKind.doc] [BlockKind.doc],
          consume_end_cons]
      rfl
    unfold nestedOK
    rw [h]
    rfl

/-- Claim C3: a link reference definition appearing after a
reference-style use of its label still resolves — the table is
collected from the whole document before any inline resolution; in
particular the input with the definition after the use renders an
anchor to `/u` with title `t`. -/
theorem claim_C3 :
    renderDoc "[a]\n\n[a]: /u \"t\"" = "<p><a href=\"/u\" title=\"t\">a</a></p>\n" ∧
    docRefTable "[a]\n\n[a]: /u \"t\"".data = [("a".data, "/u".data, "t".data)] ∧
    inlineParse (docRefTable "[a]\n\n[a]: /u \"t\"".data) "[a]".data =
      .cons (.link "/u".data "t".data (.cons (.text "a".data) .nil)) .nil := by
  exact ⟨by decide, by decide, by decide⟩

/-- Claim C4: the HTML renderer escapes exactly the characters
ampersand, less-than and greater-than in text content, additionally
the double quote in attribute values (link destinations and titles),
passes raw-HTML events through unescaped, and escapes literal text
inside code spans with the three base characters. -/
theorem claim_C4 (c : Char) (s d t : Str) :
    (¬ c = '&' → ¬ c = '<' → ¬ c = '>' → escChar c = [c]) ∧
    escChar '&' = "&amp;".data ∧ escChar '<' = "&lt;".data ∧
    escChar '>' = "&gt;".data ∧
    (¬ c = '&' → ¬ c = '<' → ¬ c = '>' → ¬ c = '"' → escAttrChar c = [c]) ∧
    escAttrChar '"' = "&quot;".data ∧
    renderInlineEvent (.text s) = escapeHTML s ∧
    renderInlineEvent (.rawHTML s) = s ∧
    renderInlineEvent (.codeSpan s) = "<code>".data ++ escapeHTML s ++ "</code>".data ∧
    renderInlineEvent (.spanStart (.link d t)) =
      "<a href=\"".data ++ escapeAttr d ++ ['"'] ++
        (if t = [] then [] else " title=\"".data ++ escapeAttr t ++ ['"']) ++ ['>'] := by
  refine ⟨?_, rfl, rfl, rfl, ?_, rfl, rfl, rfl, rfl, rfl⟩
  · intro h1 h2 h3
    simp [escChar, h1, h2, h3]
  · intro h1 h2 h3 h4
    simp [escAttrChar, escChar, h1, h2, h3, h4]

/-- Witness for claim C4 at the concrete character `x` and concrete
event payloads. -/
theorem claim_C4_witness :
    escChar 'x' = ['x'] ∧ escAttrChar 'x' = ['x'] := by
  exact ⟨(claim_C4 'x' [] [] []).1 (by decide) (by decide) (by decide),
         (claim_C4 'x' [] [] []).2.2.2.2.1 (by decide) (by decide) (by decide) (by decide)⟩

/-- Claim C5: entity decoding followed by HTML re-escaping is a round
trip — the input text consisting of the ampersand entity decodes to
the raw ampersand character in the intermediate Text event, and the
renderer re-escapes it, so the rendered text equals the input text. -/
theorem claim_C5 :
    inlineParse [] "&amp;".data = .cons (.text ['&']) .nil ∧
    escapeHTML ['&'] = "&amp;".data ∧
    renderDoc "&amp;" = "<p>&amp;</p>\n" := by
  exact ⟨by decide, by decide, by decide⟩

/-- Claim C6: `decode_numeric` is total and never signals an error:
for every digit string and base flag it returns a valid code point,
parses only up to the grammar-permitted digit count, and replaces
every invalid or out-of-range raw value (control codes, values above
the valid Unicode range, the null code point) with the Unicode
replacement character. -/
theorem claim_C6 (digits : Str) (is_hex : Bool) :
    validCodepoint (decode_numeric digits is_hex) = true ∧
    decode_numeric digits is_hex = decode_numeric (digits.take (digitLimit is_hex)) is_hex ∧
    (validCodepoint (rawNumericValue digits is_hex) = false →
      decode_numeric digits is_hex = replacement_codepoint) := by
  refine ⟨?_, ?_, ?_⟩
  · unfold decode_numeric
    by_cases h : validCodepoint (rawNumericValue digits is_hex) = true
    · simp only [h, if_true]
    · simp only [Bool.not_eq_true] at h
      simp only [h, Bool.false_eq_true, if_false]
      decide
  · simp [decode_numeric, rawNumericValue, List.take_take]
  · intro h
    simp [decode_numeric, h]

/-- Witness for claim C6 at the digit string `0`, whose raw value is
the invalid null code point. -/
theorem claim_C6_witness :
    validCodepoint (decode_numeric ['0'] false) = true ∧
    decode_numeric ['0'] false = replacement_codepoint := by
  exact ⟨(claim_C6 ['0'] false).1, (claim_C6 ['0'] false).2.2 (by decide)⟩

/-- Claim C7: the reference table is write-once per normalized label —
looking up any key in the table built from any definition list yields
the first matching definition; in particular a document with two
definitions of the same label keeps the first and a use of the label
resolves to it. -/
theorem claim_C7 :
    (∀ (defs : List (Str × Str × Str)) (key : Str),
        lookupRef (buildRefTable defs) key = firstDef defs key) ∧
    docRefTable "[a]: /1\n\n[a]: /2\n\n[a]".data = [("a".data, "/1".data, [])] ∧
    renderDoc "[a]: /1\n\n[a]: /2\n\n[a]" = "<p><a href=\"/1\">a</a></p>\n" := by
  exact ⟨lookupRef_buildRefTable, by decide, by decide⟩

/-- Claim C8: code span content whose first and last characters are
spaces and which is not all spaces has exactly one leading and one
trailing space stripped, after line endings inside become single
spaces; in particular a backtick span containing a space-padded `foo`
emits content `foo`, and a line ending inside a span becomes a space. -/
theorem claim_C8 (s : Str) :
    ((s.map (fun c => if c = '\n' then ' ' else c)).any (fun c => ¬ c = ' ') = true →
      codeProcess (' ' :: s ++ [' ']) = s.map (fun c => if c = '\n' then ' ' else c)) ∧
    inlineParse [] "` foo `".data = .cons (.code "foo".data) .nil ∧
    inlineParse [] "`a\nb`".data = .cons (.code ['a', ' ', 'b']) .nil := by
  refine ⟨?_, by decide, by decide⟩
  intro h
  unfold codeProcess
  have hmap : (' ' :: s ++ [' ']).map (fun c => if c = '\n' then ' ' else c)
      = ' ' :: (s.map (fun c => if c = '\n' then ' ' else c) ++ [' ']) := by
    simp
  rw [hmap, if_pos]
  · rw [List.drop_one, List.tail_cons, List.dropLast_concat]
  · refine ⟨rfl, ?_, ?_⟩
    · rw [show (' ' :: (s.map (fun c => if c = '\n' then ' ' else c) ++ [' ']))
            = (' ' :: s.map (fun c => if c = '\n' then ' ' else c)) ++ [' '] from rfl,
          List.getLast?_concat]
    · simp only [List.any_cons, List.any_append, h]
      simp

/-- Witness for claim C8 at the content `foo` padded with one space on
each side. -/
theorem claim_C8_witness :
    codeProcess (' ' :: "foo".data ++ [' ']) = "foo".data ∧
    inlineParse [] "` foo `".data = .cons (.code "foo".data) .nil := by
  refine ⟨?_, (claim_C8 "foo".data).2.1⟩
  rw [(claim_C8 "foo".data).1 (by decide)]
  decide

/-- Claim C9: emphasis delimiter matching follows the flanking rules —
the first input resolves to one emphasis wrapping the whole content
with a strong-emphasis around `bar` and literal `baz` trailing inside;
an asterisk matches mid-word; an underscore does not match mid-word. -/
theorem claim_C9 :
    inlineParse [] "*foo**bar**baz*".data =
      .cons (.emph (.cons (.text "foo".data)
        (.cons (.strong (.cons (.text "bar".data) .nil))
          (.cons (.text "baz".data) .nil)))) .nil ∧
    renderDoc "*foo**bar**baz*" = "<p><em>foo<strong>bar</strong>baz</em></p>\n" ∧
    inlineParse [] "a*b*c".data =
      .cons (.text "a".data) (.cons (.emph (.cons (.text "b".data) .nil))
        (.cons (.text "c".data) .nil)) ∧
    renderDoc "a*b*c" = "<p>a<em>b</em>c</p>\n" ∧
    inlineParse [] "a_b_c".data = .cons (.text "a_b_c".data) .nil ∧
    renderDoc "a_b_c" = "<p>a_b_c</p>\n" := by
  exact ⟨by decide, by decide, by decide, by decide, by decide, by decide⟩

/-- Claim C10: the translation unit's compile-time assertions hold in
the model — the offset and size types are exactly the size of
uint32_t (32 bits) and the character type exactly the size of char,
capping the addressable input buffer at one byte less than 2^32. -/
theorem claim_C10 :
    sizeof_MD_OFFSET = sizeof_uint32 ∧
    sizeof_MD_SIZE = sizeof_uint32 ∧
    sizeof_MD_CHAR = sizeof_c_char ∧
    bitsPerByte * sizeof_MD_OFFSET = 32 ∧
    bitsPerByte * sizeof_MD_SIZE = 32 ∧
    maxInputBytes = 2 ^ 32 - 1 := by
  exact ⟨rfl, rfl, rfl, rfl, rfl, rfl⟩

end MD4C
